import Mathlib

/-!
Shallow embedding of the option-pricing repository (binomial_model.py and
monte_carlo.py) over exact real arithmetic, together with proofs of the
specified properties.

Python floats are modelled by `ℝ`.  A Python function that can raise is
modelled as a value of `Except PyError _`; Python distinguishes the two
exception kinds that can escape these modules, `ValueError msg` and
`ZeroDivisionError` (plain `a / b` on Python floats raises
`ZeroDivisionError` when `b == 0.0`, it does not return `inf`/`nan`).

The NumPy random generator of monte_carlo.py is modelled by an explicit
matrix of standard-normal shocks passed as a function argument
(`shocks i k` = the shock of path `i` at step `k`), which is the standard
shallow embedding of RNG consumption.
-/

/-- Exception kinds that can escape the two modules: Python `ValueError`
(carrying its message) and Python `ZeroDivisionError`. -/
inductive PyError where
  | valueError (msg : String)
  | zeroDivisionError

/-- Embedding of the dataclass `BinomialParameters` of binomial_model.py.
Floats become reals; the Python `int` field `steps` becomes `ℤ`;
the string-typed `option_type` and `exercise` fields stay strings. -/
structure BinomialParameters where
  spot : ℝ
  strike : ℝ
  rate : ℝ
  time : ℝ
  volatility : ℝ
  steps : ℤ
  dividend_yield : ℝ := 0
  option_type : String := "call"
  exercise : String := "european"

/-- Message of the `steps` check in `BinomialParameters.validate`. -/
def stepsMessage : String := "Number of steps must be positive"

/-- Message of the `spot`/`strike` check in `BinomialParameters.validate`. -/
def spotStrikeMessage : String := "Spot and strike must be positive"

/-- Message of the `volatility` check in `BinomialParameters.validate`. -/
def volatilityMessage : String := "Volatility must be non-negative"

/-- Message of the `time` check in `BinomialParameters.validate`. -/
def timeMessage : String := "Time to maturity must be positive"

/-- Message of the `option_type` check in `BinomialParameters.validate`. -/
def optionTypeMessage : String := "option_type must be \x27call\x27 or \x27put\x27"

/-- Message of the `exercise` check in `BinomialParameters.validate`. -/
def exerciseMessage : String := "exercise must be \x27european\x27 or \x27american\x27"

/-- Message of the risk-neutral probability check in `binomial_option_price`. -/
def calibrationMessage : String :=
  "Risk-neutral probability outside [0, 1]; adjust inputs or steps"

/-- The six messages that `BinomialParameters.validate` can raise; a
`ValueError` with one of these messages is a validation error. -/
def validationMessages : List String :=
  [stepsMessage, spotStrikeMessage, volatilityMessage, timeMessage,
   optionTypeMessage, exerciseMessage]

/-- Embedding of `BinomialParameters.validate` (binomial_model.py, lines
42-54): the checks are performed in source order and the first failing
check raises a `ValueError` with its message. -/
noncomputable def BinomialParameters.validate (p : BinomialParameters) :
    Except PyError Unit :=
  if p.steps ≤ 0 then .error (.valueError stepsMessage)
  else if p.spot ≤ 0 ∨ p.strike ≤ 0 then .error (.valueError spotStrikeMessage)
  else if p.volatility < 0 then .error (.valueError volatilityMessage)
  else if p.time ≤ 0 then .error (.valueError timeMessage)
  else if ¬ (p.option_type = "call" ∨ p.option_type = "put") then
    .error (.valueError optionTypeMessage)
  else if ¬ (p.exercise = "european" ∨ p.exercise = "american") then
    .error (.valueError exerciseMessage)
  else .ok ()

/-- Embedding of `_payoff` (binomial_model.py, lines 57-60), uncurried:
`_payoff("call") price strike = max(price - strike, 0)` and every other
option_type string gets the put payoff, exactly as in the source. -/
noncomputable def payoff_fn (option_type : String) (price strike : ℝ) : ℝ :=
  if option_type = "call" then max (price - strike) 0 else max (strike - price) 0

/-- The underlying price at node `j` of level `step` of the recombining
lattice, `spot * up ** j * down ** (step - j)` (binomial_model.py lines 91
and 104; in the source `j ≤ step` always holds, matching `ℕ` subtraction). -/
noncomputable def nodePrice (spot up down : ℝ) (step j : ℕ) : ℝ :=
  spot * up ^ j * down ^ (step - j)

/-- Line 78: `dt = params.time / params.steps` (after validation
`steps ≥ 1`, so the Python division cannot raise). -/
noncomputable def dtOf (p : BinomialParameters) : ℝ := p.time / (p.steps : ℝ)

/-- Line 79: `up = exp(volatility * sqrt(dt))`. -/
noncomputable def upOf (p : BinomialParameters) : ℝ :=
  Real.exp (p.volatility * Real.sqrt (dtOf p))

/-- Line 80: `down = 1 / up` (`up = exp(...) > 0`, so the Python division
cannot raise). -/
noncomputable def downOf (p : BinomialParameters) : ℝ := 1 / upOf p

/-- Line 81: `growth = exp((rate - dividend_yield) * dt)`. -/
noncomputable def growthOf (p : BinomialParameters) : ℝ :=
  Real.exp ((p.rate - p.dividend_yield) * dtOf p)

/-- Line 82: `prob = (growth - down) / (up - down)`.  In Python this
division raises `ZeroDivisionError` when `up - down == 0` (which happens
exactly at volatility `0`); `binomial_option_price` models that raise
explicitly, and this total real-division value is only ever exposed when
`up - down ≠ 0`. -/
noncomputable def probOf (p : BinomialParameters) : ℝ :=
  (growthOf p - downOf p) / (upOf p - downOf p)

/-- Line 87: `disc = exp(-rate * dt)`. -/
noncomputable def discOf (p : BinomialParameters) : ℝ :=
  Real.exp (-p.rate * dtOf p)

/-- Lines 91-92: the list of terminal option values,
`[payoff_fn(spot * up**j * down**(steps-j), strike) for j in range(steps+1)]`. -/
noncomputable def terminalValues (p : BinomialParameters) : List ℝ :=
  (List.range (p.steps.toNat + 1)).map fun j =>
    payoff_fn p.option_type (nodePrice p.spot (upOf p) (downOf p) p.steps.toNat j) p.strike

/-- One round of the European backward induction (line 96):
`values = [disc * (prob * values[j+1] + (1-prob) * values[j]) for j in range(len(values)-1)]`.
List indexing `values[j]` is in range throughout the source loop, so it is
rendered as `getD _ 0`. -/
noncomputable def euroStep (disc prob : ℝ) (values : List ℝ) : List ℝ :=
  (List.range (values.length - 1)).map fun j =>
    disc * (prob * values.getD (j + 1) 0 + (1 - prob) * values.getD j 0)

/-- One level of the American backward induction (lines 101-107): at level
`step` the new value at node `j` is the maximum of the discounted
continuation value and the immediate-exercise payoff at that node. -/
noncomputable def amerStep (spot strike : ℝ) (option_type : String)
    (up down disc prob : ℝ) (values : List ℝ) (step : ℕ) : List ℝ :=
  (List.range (step + 1)).map fun j =>
    max (disc * (prob * values.getD (j + 1) 0 + (1 - prob) * values.getD j 0))
        (payoff_fn option_type (nodePrice spot up down step j) strike)

/-- The value returned on the European branch (lines 94-97): `steps` rounds
of `euroStep` starting from the terminal values, then `values[0]`. -/
noncomputable def euroRoot (p : BinomialParameters) : ℝ :=
  ((euroStep (discOf p) (probOf p))^[p.steps.toNat] (terminalValues p)).getD 0 0

/-- The value returned on the American branch (lines 100-109): the levels
are processed for `step` in `range(steps-1, -1, -1)`, i.e. a left fold of
`amerStep` over `(List.range steps).reverse`, then `values[0]`. -/
noncomputable def amerRoot (p : BinomialParameters) : ℝ :=
  (((List.range p.steps.toNat).reverse).foldl
    (amerStep p.spot p.strike p.option_type (upOf p) (downOf p) (discOf p) (probOf p))
    (terminalValues p)).getD 0 0

/-- Embedding of `binomial_option_price` (binomial_model.py, lines 63-109):
validate, derive the lattice quantities, raise `ZeroDivisionError` if the
probability denominator `up - down` is zero (Python float division), raise
the calibration `ValueError` if the probability is outside `[0, 1]`, then
run the European or the American backward induction. -/
noncomputable def binomial_option_price (p : BinomialParameters) : Except PyError ℝ :=
  match p.validate with
  | .error e => .error e
  | .ok _ =>
    if upOf p - downOf p = 0 then .error .zeroDivisionError
    else if ¬ (0 ≤ probOf p ∧ probOf p ≤ 1) then .error (.valueError calibrationMessage)
    else if p.exercise = "european" then .ok (euroRoot p)
    else .ok (amerRoot p)

/-- The same parameters with another exercise style (used to compare the
two styles on otherwise identical parameters). -/
def withExercise (p : BinomialParameters) (e : String) : BinomialParameters :=
  ⟨p.spot, p.strike, p.rate, p.time, p.volatility, p.steps, p.dividend_yield,
   p.option_type, e⟩

/-- The same parameters with another option kind (used to compare call and
put on otherwise identical parameters). -/
def withOptionType (p : BinomialParameters) (o : String) : BinomialParameters :=
  ⟨p.spot, p.strike, p.rate, p.time, p.volatility, p.steps, p.dividend_yield,
   o, p.exercise⟩

/-- Embedding of the dataclass `MonteCarloParameters` of monte_carlo.py.
The `seed` field only selects the RNG stream; randomness is modelled by the
explicit shock matrix argument of `simulate_paths`, so the field is not
carried. -/
structure MonteCarloParameters where
  spot : ℝ
  rate : ℝ
  time : ℝ
  volatility : ℝ
  paths : ℤ := 10000
  steps : ℤ := 1
  dividend_yield : ℝ := 0

/-- Message of the payoff shape check in `monte_carlo_price`. -/
def payoffShapeMessage : String := "Payoff function must return one value per path"

/-- Embedding of `MonteCarloParameters.validate` (monte_carlo.py, lines
41-51), checks in source order. -/
noncomputable def MonteCarloParameters.validate (p : MonteCarloParameters) :
    Except PyError Unit :=
  if p.spot ≤ 0 then .error (.valueError "Spot must be positive")
  else if p.volatility < 0 then .error (.valueError "Volatility must be non-negative")
  else if p.time ≤ 0 then .error (.valueError "Time to maturity must be positive")
  else if p.paths ≤ 0 then .error (.valueError "Number of paths must be positive")
  else if p.steps ≤ 0 then .error (.valueError "Number of steps must be positive")
  else .ok ()

/-- Line 59: `dt = params.time / params.steps` (post-validation `steps ≥ 1`). -/
noncomputable def mcDt (p : MonteCarloParameters) : ℝ := p.time / (p.steps : ℝ)

/-- Line 60: `drift = (rate - dividend_yield - 0.5 * volatility**2) * dt`. -/
noncomputable def mcDrift (p : MonteCarloParameters) : ℝ :=
  (p.rate - p.dividend_yield - (1 / 2) * p.volatility ^ 2) * mcDt p

/-- Line 61: `diffusion = volatility * sqrt(dt)`. -/
noncomputable def mcDiffusion (p : MonteCarloParameters) : ℝ :=
  p.volatility * Real.sqrt (mcDt p)

/-- The price of one path at step `k` (lines 65-69): column 0 is `spot` and
`paths[:, step] = paths[:, step-1] * exp(drift + diffusion * shocks[:, step-1])`
filled column by column, which row-wise is exactly this recurrence. -/
noncomputable def pathPrice (p : MonteCarloParameters) (shock : ℕ → ℝ) : ℕ → ℝ
  | 0 => p.spot
  | k + 1 => pathPrice p shock k * Real.exp (mcDrift p + mcDiffusion p * shock k)

/-- The full `paths × (steps+1)` matrix produced by `simulate_paths`, as a
list of rows; `shocks i k` is the standard-normal draw of path `i` at step
`k`. -/
noncomputable def gbmPaths (p : MonteCarloParameters) (shocks : ℕ → ℕ → ℝ) :
    List (List ℝ) :=
  (List.range p.paths.toNat).map fun i =>
    (List.range (p.steps.toNat + 1)).map fun k => pathPrice p (shocks i) k

/-- Embedding of `simulate_paths` (monte_carlo.py, lines 54-71): validate,
then return the GBM path matrix driven by the shock matrix. -/
noncomputable def simulate_paths (p : MonteCarloParameters) (shocks : ℕ → ℕ → ℝ) :
    Except PyError (List (List ℝ)) :=
  match p.validate with
  | .error e => .error e
  | .ok _ => .ok (gbmPaths p shocks)

/-- Embedding of `monte_carlo_price` (monte_carlo.py, lines 74-85): the
payoff function is applied to the path matrix giving the list of per-path
payoffs, a shape mismatch raises the `ValueError`, and otherwise the result
is `exp(-rate * time) * np.mean(payoffs)` (the mean of an `(n,)` array is
`sum / n`). -/
noncomputable def monte_carlo_price (p : MonteCarloParameters)
    (payoff : List (List ℝ) → List ℝ) (shocks : ℕ → ℕ → ℝ) : Except PyError ℝ :=
  match simulate_paths p shocks with
  | .error e => .error e
  | .ok paths =>
    if (payoff paths).length ≠ p.paths.toNat then
      .error (.valueError payoffShapeMessage)
    else
      .ok (Real.exp (-p.rate * p.time) *
        ((payoff paths).sum / ((payoff paths).length : ℝ)))

/-- The function-level form of one European backward-induction round, used
to reason about iterated `euroStep` rounds through `getD`. -/
noncomputable def euroFun (disc prob : ℝ) (f : ℕ → ℝ) : ℕ → ℝ :=
  fun j => disc * (prob * f (j + 1) + (1 - prob) * f j)

/-- The terminal value list read as a total function via `getD _ 0`. -/
noncomputable def termFun (p : BinomialParameters) : ℕ → ℝ :=
  fun i => (terminalValues p).getD i 0

/-! Basic list access lemmas for the range-map lists produced by the two
backward inductions. -/

lemma getD_range_map (F : ℕ → ℝ) {m j : ℕ} (h : j < m) :
    ((List.range m).map F).getD j 0 = F j := by
  rw [List.getD_eq_getElem _ _ (by simpa using h)]
  simp

lemma euroStep_length (disc prob : ℝ) (v : List ℝ) :
    (euroStep disc prob v).length = v.length - 1 := by
  simp [euroStep]

lemma euroStep_getD (disc prob : ℝ) (v : List ℝ) {j : ℕ} (h : j + 1 < v.length) :
    (euroStep disc prob v).getD j 0 =
      euroFun disc prob (fun i => v.getD i 0) j := by
  rw [euroStep, getD_range_map _ (by omega)]
  rfl

lemma amerStep_length (spot strike : ℝ) (ot : String) (u d disc prob : ℝ)
    (v : List ℝ) (s : ℕ) :
    (amerStep spot strike ot u d disc prob v s).length = s + 1 := by
  simp [amerStep]

lemma amerStep_getD (spot strike : ℝ) (ot : String) (u d disc prob : ℝ)
    (v : List ℝ) {s j : ℕ} (h : j ≤ s) :
    (amerStep spot strike ot u d disc prob v s).getD j 0 =
      max (disc * (prob * v.getD (j + 1) 0 + (1 - prob) * v.getD j 0))
          (payoff_fn ot (nodePrice spot u d s j) strike) := by
  rw [amerStep, getD_range_map _ (by omega)]

/-! Function-level lemmas about the European induction operator. -/

lemma euroFun_apply (disc prob : ℝ) (f : ℕ → ℝ) (j : ℕ) :
    euroFun disc prob f j = disc * (prob * f (j + 1) + (1 - prob) * f j) := rfl

lemma euroFun_congrOn (disc prob : ℝ) :
    ∀ (k : ℕ) (f g : ℕ → ℝ) (j : ℕ),
      (∀ i, i ≤ j + k → f i = g i) →
      (euroFun disc prob)^[k] f j = (euroFun disc prob)^[k] g j := by
  intro k
  induction k with
  | zero => intro f g j h; simpa using h j (by omega)
  | succ m ih =>
    intro f g j h
    rw [Function.iterate_succ_apply', Function.iterate_succ_apply',
      euroFun_apply, euroFun_apply, ih f g (j + 1) (fun i hi => h i (by omega)),
      ih f g j (fun i hi => h i (by omega))]

lemma euroFun_iterate_nonneg (disc prob : ℝ) (hd : 0 ≤ disc) (hp0 : 0 ≤ prob)
    (hp1 : prob ≤ 1) (f : ℕ → ℝ) (hf : ∀ i, 0 ≤ f i) :
    ∀ (k : ℕ) (j : ℕ), 0 ≤ (euroFun disc prob)^[k] f j := by
  intro k
  induction k with
  | zero => simpa using hf
  | succ m ih =>
    intro j
    rw [Function.iterate_succ_apply', euroFun_apply]
    have h1 := ih (j + 1)
    have h2 := ih j
    have hq : 0 ≤ 1 - prob := by linarith
    positivity

lemma euroFun_iterate_sub (disc prob : ℝ) (f g : ℕ → ℝ) :
    ∀ (k : ℕ) (j : ℕ),
      (euroFun disc prob)^[k] (fun i => f i - g i) j =
        (euroFun disc prob)^[k] f j - (euroFun disc prob)^[k] g j := by
  intro k
  induction k with
  | zero => intro j; rfl
  | succ m ih =>
    intro j
    rw [Function.iterate_succ_apply', Function.iterate_succ_apply',
      Function.iterate_succ_apply', euroFun_apply, euroFun_apply, euroFun_apply,
      ih (j + 1), ih j]
    ring

/-! Lemmas about the node prices of the recombining lattice. -/

lemma nodePrice_succ_up (spot u d : ℝ) (s j : ℕ) :
    nodePrice spot u d (s + 1) (j + 1) = u * nodePrice spot u d s j := by
  rw [nodePrice, nodePrice, Nat.succ_sub_succ, pow_succ]
  ring

lemma nodePrice_succ_down (spot u d : ℝ) {s j : ℕ} (h : j ≤ s) :
    nodePrice spot u d (s + 1) j = d * nodePrice spot u d s j := by
  rw [nodePrice, nodePrice, Nat.succ_sub h, pow_succ]
  ring

lemma nodePrice_mix (spot u d growth prob : ℝ)
    (hpg : prob * u + (1 - prob) * d = growth) {s j : ℕ} (h : j ≤ s) :
    prob * nodePrice spot u d (s + 1) (j + 1) + (1 - prob) * nodePrice spot u d (s + 1) j =
      growth * nodePrice spot u d s j := by
  rw [nodePrice_succ_up, nodePrice_succ_down spot u d h, ← hpg]
  ring

lemma nodePrice_zero (spot u d : ℝ) : nodePrice spot u d 0 0 = spot := by
  simp [nodePrice]

/-! Lemmas about the payoff function. -/

lemma payoff_fn_nonneg (ot : String) (x k : ℝ) : 0 ≤ payoff_fn ot x k := by
  rw [payoff_fn]
  split <;> exact le_max_right _ _

lemma payoff_call_sub_put (x k : ℝ) :
    payoff_fn "call" x k - payoff_fn "put" x k = x - k := by
  rw [payoff_fn, payoff_fn, if_pos rfl, if_neg (by decide)]
  rcases le_total x k with h | h
  · rw [max_eq_right (by linarith), max_eq_left (by linarith)]
    ring
  · rw [max_eq_left (by linarith), max_eq_right (by linarith)]
    ring

lemma payoff_call_le (x k c : ℝ) (h1 : x - k ≤ c) (h2 : 0 ≤ c) :
    payoff_fn "call" x k ≤ c := by
  rw [payoff_fn, if_pos rfl]
  exact max_le h1 h2

/-! Bridge between the list-valued backward inductions and their
function-level forms. -/

lemma euroStep_iterate_getD (disc prob : ℝ) :
    ∀ (k : ℕ) (v : List ℝ) (j : ℕ), j + k < v.length →
      ((euroStep disc prob)^[k] v).getD j 0 =
        (euroFun disc prob)^[k] (fun i => v.getD i 0) j := by
  intro k
  induction k with
  | zero => intro v j _; rfl
  | succ m ih =>
    intro v j hj
    rw [Function.iterate_succ_apply, ih (euroStep disc prob v) j
      (by rw [euroStep_length]; omega)]
    have hcongr := euroFun_congrOn disc prob m
      (fun i => (euroStep disc prob v).getD i 0)
      (euroFun disc prob (fun i => v.getD i 0)) j
      (fun i hi => euroStep_getD disc prob v (by omega))
    rw [hcongr, ← Function.iterate_succ_apply]

/-- Invariant propagation along the American backward loop: the loop body
runs for `step` in `range(n-1, -1, -1)`, i.e. a left fold over
`(List.range n).reverse`, and an invariant `Q` preserved by each level
transfers from level `n` to level `0`. -/
lemma foldl_range_reverse_inv (F : List ℝ → ℕ → List ℝ) (N : ℕ)
    (Q : ℕ → List ℝ → Prop)
    (hstep : ∀ s w, s < N → Q (s + 1) w → Q s (F w s)) :
    ∀ n, n ≤ N → ∀ v, Q n v → Q 0 (((List.range n).reverse).foldl F v) := by
  intro n
  induction n with
  | zero => intro _ v hv; simpa using hv
  | succ m ih =>
    intro hmN v hv
    rw [List.range_succ, List.reverse_append, List.reverse_singleton,
      List.singleton_append, List.foldl_cons]
    exact ih (by omega) (F v m) (hstep m v (by omega) hv)

/-! Lemmas about the terminal value list. -/

lemma terminalValues_length (p : BinomialParameters) :
    (terminalValues p).length = p.steps.toNat + 1 := by
  simp [terminalValues]

lemma termFun_eq (p : BinomialParameters) {j : ℕ} (h : j ≤ p.steps.toNat) :
    termFun p j =
      payoff_fn p.option_type (nodePrice p.spot (upOf p) (downOf p) p.steps.toNat j)
        p.strike := by
  rw [termFun, terminalValues, getD_range_map _ (by omega)]

lemma termFun_nonneg (p : BinomialParameters) (j : ℕ) : 0 ≤ termFun p j := by
  rcases le_or_lt j p.steps.toNat with h | h
  · rw [termFun_eq p h]; exact payoff_fn_nonneg _ _ _
  · rw [termFun, List.getD_eq_default]
    rw [terminalValues_length]; omega

/-- The European root value in function-level form. -/
lemma euroRoot_eq_fun (p : BinomialParameters) :
    euroRoot p = (euroFun (discOf p) (probOf p))^[p.steps.toNat] (termFun p) 0 := by
  rw [euroRoot, euroStep_iterate_getD _ _ _ _ _ (by rw [terminalValues_length]; omega)]
  rfl

/-- Post-division identity of the risk-neutral probability: when the
denominator `up - down` is non-zero, the probability mixes `up` and `down`
back to `growth`. -/
lemma prob_mix (p : BinomialParameters) (hud : upOf p - downOf p ≠ 0) :
    probOf p * upOf p + (1 - probOf p) * downOf p = growthOf p := by
  rw [probOf]
  field_simp
  ring

/-! Success-shape lemmas for `binomial_option_price`. -/

lemma validate_ok (p : BinomialParameters) (hst : 0 < p.steps) (hsp : 0 < p.spot)
    (hk : 0 < p.strike) (hv : 0 ≤ p.volatility) (ht : 0 < p.time)
    (hot : p.option_type = "call" ∨ p.option_type = "put")
    (hex : p.exercise = "european" ∨ p.exercise = "american") :
    p.validate = .ok () := by
  rw [BinomialParameters.validate, if_neg (by omega),
    if_neg (by push_neg; constructor <;> linarith),
    if_neg (by linarith), if_neg (by linarith),
    if_neg (not_not_intro hot), if_neg (not_not_intro hex)]

lemma price_ok_european (p : BinomialParameters) (hst : 0 < p.steps)
    (hsp : 0 < p.spot) (hk : 0 < p.strike) (hv : 0 ≤ p.volatility) (ht : 0 < p.time)
    (hot : p.option_type = "call" ∨ p.option_type = "put")
    (hex : p.exercise = "european")
    (hud : upOf p - downOf p ≠ 0) (hp0 : 0 ≤ probOf p) (hp1 : probOf p ≤ 1) :
    binomial_option_price p = .ok (euroRoot p) := by
  rw [binomial_option_price, validate_ok p hst hsp hk hv ht hot (Or.inl hex)]
  rw [if_neg hud, if_neg (not_not_intro ⟨hp0, hp1⟩), if_pos hex]

lemma price_ok_american (p : BinomialParameters) (hst : 0 < p.steps)
    (hsp : 0 < p.spot) (hk : 0 < p.strike) (hv : 0 ≤ p.volatility) (ht : 0 < p.time)
    (hot : p.option_type = "call" ∨ p.option_type = "put")
    (hex : p.exercise = "american")
    (hud : upOf p - downOf p ≠ 0) (hp0 : 0 ≤ probOf p) (hp1 : probOf p ≤ 1) :
    binomial_option_price p = .ok (amerRoot p) := by
  rw [binomial_option_price, validate_ok p hst hsp hk hv ht hot (Or.inr hex)]
  rw [if_neg hud, if_neg (not_not_intro ⟨hp0, hp1⟩),
    if_neg (by rw [hex]; decide)]

/-! Field-stability of the derived quantities under changing only the
exercise style or only the option kind.  These hold definitionally because
the derived quantities never read the replaced field. -/

lemma euroRoot_withExercise (p : BinomialParameters) (e : String) :
    euroRoot (withExercise p e) = euroRoot p := rfl

lemma amerRoot_withExercise (p : BinomialParameters) (e : String) :
    amerRoot (withExercise p e) = amerRoot p := rfl

lemma probOf_withExercise (p : BinomialParameters) (e : String) :
    probOf (withExercise p e) = probOf p := rfl

lemma upOf_withExercise (p : BinomialParameters) (e : String) :
    upOf (withExercise p e) = upOf p := rfl

lemma probOf_withOptionType (p : BinomialParameters) (o : String) :
    probOf (withOptionType p o) = probOf p := rfl

lemma upOf_withOptionType (p : BinomialParameters) (o : String) :
    upOf (withOptionType p o) = upOf p := rfl

/-! Characterisation of the validation errors. -/

lemma validate_error_iff_aux (p : BinomialParameters) :
    (∃ m ∈ validationMessages, p.validate = .error (.valueError m)) ↔
      (p.steps ≤ 0 ∨ p.spot ≤ 0 ∨ p.strike ≤ 0 ∨ p.volatility < 0 ∨ p.time ≤ 0 ∨
        ¬ (p.option_type = "call" ∨ p.option_type = "put") ∨
        ¬ (p.exercise = "european" ∨ p.exercise = "american")) := by
  rw [BinomialParameters.validate]
  by_cases h1 : p.steps ≤ 0
  · rw [if_pos h1]
    exact iff_of_true ⟨stepsMessage, by simp [validationMessages], rfl⟩ (Or.inl h1)
  rw [if_neg h1]
  by_cases h2 : p.spot ≤ 0 ∨ p.strike ≤ 0
  · rw [if_pos h2]
    refine iff_of_true ⟨spotStrikeMessage, by simp [validationMessages], rfl⟩ ?_
    rcases h2 with h | h
    · exact Or.inr (Or.inl h)
    · exact Or.inr (Or.inr (Or.inl h))
  rw [if_neg h2]
  by_cases h3 : p.volatility < 0
  · rw [if_pos h3]
    exact iff_of_true ⟨volatilityMessage, by simp [validationMessages], rfl⟩
      (Or.inr (Or.inr (Or.inr (Or.inl h3))))
  rw [if_neg h3]
  by_cases h4 : p.time ≤ 0
  · rw [if_pos h4]
    exact iff_of_true ⟨timeMessage, by simp [validationMessages], rfl⟩
      (Or.inr (Or.inr (Or.inr (Or.inr (Or.inl h4)))))
  rw [if_neg h4]
  by_cases h5 : p.option_type = "call" ∨ p.option_type = "put"
  rotate_left
  · rw [if_pos h5]
    exact iff_of_true ⟨optionTypeMessage, by simp [validationMessages], rfl⟩
      (Or.inr (Or.inr (Or.inr (Or.inr (Or.inr (Or.inl h5))))))
  rw [if_neg (not_not_intro h5)]
  by_cases h6 : p.exercise = "european" ∨ p.exercise = "american"
  rotate_left
  · rw [if_pos h6]
    exact iff_of_true ⟨exerciseMessage, by simp [validationMessages], rfl⟩
      (Or.inr (Or.inr (Or.inr (Or.inr (Or.inr (Or.inr h6))))))
  rw [if_neg (not_not_intro h6)]
  refine iff_of_false ?_ ?_
  · rintro ⟨m, _, h⟩
    exact Except.noConfusion h
  · push_neg at h2
    rintro (h | h | h | h | h | h | h)
    · exact absurd h h1
    · exact absurd h (by simpa using h2.1)
    · exact absurd h (by simpa using h2.2)
    · exact absurd h h3
    · exact absurd h h4
    · exact absurd h5 h
    · exact absurd h6 h

/-- C3: `binomial_option_price` raises a ValidationError — a `ValueError`
with one of the six `validate` messages, raised by `validate` before any
pricing computation (it is the first statement of the function and the
match on its outcome precedes everything else) — if and only if
`steps ≤ 0`, `spot ≤ 0`, `strike ≤ 0`, `volatility < 0`, `time ≤ 0`, the
option kind is not "call" or "put", or the exercise style is not
"european" or "american". -/
theorem validation_error_iff (p : BinomialParameters) :
    (∃ m ∈ validationMessages, binomial_option_price p = .error (.valueError m)) ↔
      (p.steps ≤ 0 ∨ p.spot ≤ 0 ∨ p.strike ≤ 0 ∨ p.volatility < 0 ∨ p.time ≤ 0 ∨
        ¬ (p.option_type = "call" ∨ p.option_type = "put") ∨
        ¬ (p.exercise = "european" ∨ p.exercise = "american")) := by
  rw [← validate_error_iff_aux p]
  cases hv : p.validate with
  | error e =>
    have hb : binomial_option_price p = .error e := by
      rw [binomial_option_price, hv]
    rw [hb]
    simp only [Except.error.injEq]
  | ok u =>
    constructor
    · rintro ⟨m, hm, hprice⟩
      rw [binomial_option_price, hv] at hprice
      by_cases hc1 : upOf p - downOf p = 0
      · rw [if_pos hc1] at hprice
        exact PyError.noConfusion (Except.error.inj hprice)
      rw [if_neg hc1] at hprice
      by_cases hc2 : 0 ≤ probOf p ∧ probOf p ≤ 1
      rotate_left
      · rw [if_pos hc2] at hprice
        have : calibrationMessage = m :=
          PyError.valueError.inj (Except.error.inj hprice)
        rw [← this] at hm
        exact absurd hm (by decide)
      rw [if_neg (not_not_intro hc2)] at hprice
      by_cases hc3 : p.exercise = "european"
      · rw [if_pos hc3] at hprice
        exact Except.noConfusion hprice
      · rw [if_neg hc3] at hprice
        exact Except.noConfusion hprice
    · rintro ⟨m, _, hval⟩
      exact Except.noConfusion hval

/-- C2 (failing input): the parameter set spot=100, strike=100, rate=0,
time=1, volatility=0, steps=1, call, european passes `validate`
(volatility may be 0), yet `binomial_option_price` raises
`ZeroDivisionError` — not a validation or calibration `ValueError` —
because `up = exp(0) = 1 = down` makes the probability denominator
`up - down` exactly zero in Python float arithmetic. -/
theorem zero_volatility_division_by_zero :
    binomial_option_price ⟨100, 100, 0, 1, 0, 1, 0, "call", "european"⟩ =
      .error .zeroDivisionError := by
  have hup : upOf ⟨100, 100, 0, 1, 0, 1, 0, "call", "european"⟩ = 1 := by
    rw [upOf]
    norm_num [Real.exp_zero]
  rw [binomial_option_price,
    validate_ok _ (by decide) (by norm_num) (by norm_num) le_rfl (by norm_num)
      (Or.inl rfl) (Or.inl rfl),
    if_pos (by rw [downOf, hup]; norm_num)]

/-- The American backward induction dominates the European one pointwise:
each level value is a `max` whose continuation component is the European
mixing of values that dominate the European level below it. -/
lemma amer_dominates_euro (spot strike : ℝ) (ot : String) (u d disc prob : ℝ)
    (hd : 0 ≤ disc) (hp0 : 0 ≤ prob) (hp1 : prob ≤ 1) (n : ℕ) (v : List ℝ) :
    (euroFun disc prob)^[n] (fun i => v.getD i 0) 0 ≤
      (((List.range n).reverse).foldl (amerStep spot strike ot u d disc prob) v).getD
        0 0 := by
  have hq : (0 : ℝ) ≤ 1 - prob := by linarith
  have main := foldl_range_reverse_inv (amerStep spot strike ot u d disc prob) n
    (fun s w => ∀ j, j ≤ s →
      (euroFun disc prob)^[n - s] (fun i => v.getD i 0) j ≤ w.getD j 0)
    ?_ n le_rfl v ?_
  · simpa using main 0 le_rfl
  · intro s w hsn hQ j hjs
    rw [amerStep_getD spot strike ot u d disc prob w hjs]
    refine le_trans ?_ (le_max_left _ _)
    have e1 := hQ (j + 1) (by omega)
    have e2 := hQ j (by omega)
    have hns : n - s = (n - (s + 1)) + 1 := by omega
    rw [hns, Function.iterate_succ_apply', euroFun_apply]
    exact mul_le_mul_of_nonneg_left
      (add_le_add (mul_le_mul_of_nonneg_left e1 hp0)
        (mul_le_mul_of_nonneg_left e2 hq)) hd
  · intro j _
    simp

/-- C1: with identical spot, strike, rate, time, volatility, steps,
dividend yield and option kind, whenever the parameters pass validation and
the derived risk-neutral probability exists (the probability denominator
`up - down` is non-zero, otherwise Python raises before any price is
produced) and lies in `[0, 1]`, the American price is at least the
European price. -/
theorem american_ge_european (p : BinomialParameters)
    (hst : 0 < p.steps) (hsp : 0 < p.spot) (hk : 0 < p.strike)
    (hv : 0 ≤ p.volatility) (ht : 0 < p.time)
    (hot : p.option_type = "call" ∨ p.option_type = "put")
    (hud : upOf p - downOf p ≠ 0) (hp0 : 0 ≤ probOf p) (hp1 : probOf p ≤ 1) :
    ∃ a e : ℝ,
      binomial_option_price (withExercise p "american") = .ok a ∧
      binomial_option_price (withExercise p "european") = .ok e ∧ e ≤ a := by
  refine ⟨amerRoot p, euroRoot p, ?_, ?_, ?_⟩
  · rw [← amerRoot_withExercise p "american"]
    exact price_ok_american _ hst hsp hk hv ht hot rfl hud hp0 hp1
  · rw [← euroRoot_withExercise p "european"]
    exact price_ok_european _ hst hsp hk hv ht hot rfl hud hp0 hp1
  · rw [euroRoot_eq_fun, amerRoot]
    exact amer_dominates_euro p.spot p.strike p.option_type (upOf p) (downOf p)
      (discOf p) (probOf p) (Real.exp_pos _).le hp0 hp1 p.steps.toNat
      (terminalValues p)

/-! Concrete evaluation lemmas for the parameter family
spot=1, strike=1, rate=0, time=1, volatility=1, steps=1,
dividend_yield=0 used to instantiate the universally quantified
theorems at a concrete input. -/

lemma wDt (ot ex : String) : dtOf ⟨1, 1, 0, 1, 1, 1, 0, ot, ex⟩ = 1 := by
  rw [dtOf]
  norm_num

lemma wUp (ot ex : String) : upOf ⟨1, 1, 0, 1, 1, 1, 0, ot, ex⟩ = Real.exp 1 := by
  rw [upOf, wDt]
  norm_num [Real.sqrt_one]

lemma wDown (ot ex : String) :
    downOf ⟨1, 1, 0, 1, 1, 1, 0, ot, ex⟩ = (Real.exp 1)⁻¹ := by
  rw [downOf, wUp, one_div]

lemma wGrowth (ot ex : String) : growthOf ⟨1, 1, 0, 1, 1, 1, 0, ot, ex⟩ = 1 := by
  rw [growthOf, wDt]
  norm_num [Real.exp_zero]

lemma exp_one_facts : (2 : ℝ) ≤ Real.exp 1 ∧ (Real.exp 1)⁻¹ < 1 := by
  have h1 := Real.add_one_le_exp 1
  have h2 : (Real.exp 1)⁻¹ = Real.exp (-1) := (Real.exp_neg 1).symm
  have h3 : Real.exp (-1) < Real.exp 0 := Real.exp_lt_exp.mpr (by norm_num)
  rw [Real.exp_zero] at h3
  exact ⟨by linarith, by rw [h2]; exact h3⟩

lemma wUD (ot ex : String) :
    upOf ⟨1, 1, 0, 1, 1, 1, 0, ot, ex⟩ - downOf ⟨1, 1, 0, 1, 1, 1, 0, ot, ex⟩ ≠ 0 := by
  rw [wUp, wDown]
  have h := exp_one_facts
  have : (0 : ℝ) < Real.exp 1 - (Real.exp 1)⁻¹ := by linarith [h.1, h.2]
  exact ne_of_gt this

lemma wProb0 (ot ex : String) : 0 ≤ probOf ⟨1, 1, 0, 1, 1, 1, 0, ot, ex⟩ := by
  rw [probOf, wUp, wDown, wGrowth]
  have h := exp_one_facts
  exact div_nonneg (by linarith [h.2]) (by linarith [h.1, h.2])

lemma wProb1 (ot ex : String) : probOf ⟨1, 1, 0, 1, 1, 1, 0, ot, ex⟩ ≤ 1 := by
  rw [probOf, wUp, wDown, wGrowth]
  have h := exp_one_facts
  rw [div_le_one (by linarith [h.1, h.2])]
  linarith [h.1]

/-- C1 witness: the inequality of `american_ge_european` at the concrete
parameter set spot=1, strike=1, rate=0, time=1, volatility=1, steps=1. -/
theorem american_ge_european_witness :
    ∃ a e : ℝ,
      binomial_option_price
        (withExercise ⟨1, 1, 0, 1, 1, 1, 0, "call", "european"⟩ "american") = .ok a ∧
      binomial_option_price
        (withExercise ⟨1, 1, 0, 1, 1, 1, 0, "call", "european"⟩ "european") = .ok e ∧
      e ≤ a :=
  american_ge_european ⟨1, 1, 0, 1, 1, 1, 0, "call", "european"⟩
    (by norm_num) (by norm_num) (by norm_num) (by norm_num) (by norm_num)
    (Or.inl rfl) (wUD "call" "european") (wProb0 "call" "european")
    (wProb1 "call" "european")

lemma amer_fold_nonneg (spot strike : ℝ) (ot : String) (u d disc prob : ℝ)
    (n : ℕ) (v : List ℝ) (hv0 : ∀ j, 0 ≤ v.getD j 0) :
    ∀ j, 0 ≤
      ((((List.range n).reverse).foldl (amerStep spot strike ot u d disc prob) v)).getD
        j 0 := by
  refine foldl_range_reverse_inv (amerStep spot strike ot u d disc prob) n
    (fun _ w => ∀ j, 0 ≤ w.getD j 0) ?_ n le_rfl v hv0
  intro s w _ _ j
  rcases le_or_lt j s with h | h
  · rw [amerStep_getD spot strike ot u d disc prob w h]
    exact le_trans (payoff_fn_nonneg _ _ _) (le_max_right _ _)
  · rw [List.getD_eq_default _ _ (by rw [amerStep_length]; omega)]

lemma amer_fold_ge_intrinsic (spot strike : ℝ) (ot : String) (u d disc prob : ℝ)
    (n : ℕ) (hn : 0 < n) (v : List ℝ) :
    payoff_fn ot spot strike ≤
      ((((List.range n).reverse).foldl (amerStep spot strike ot u d disc prob) v)).getD
        0 0 := by
  have main := foldl_range_reverse_inv (amerStep spot strike ot u d disc prob) n
    (fun s w => s = 0 → payoff_fn ot spot strike ≤ w.getD 0 0) ?_ n le_rfl v ?_
  · exact main rfl
  · intro s w _ _ hs0
    subst hs0
    rw [amerStep_getD spot strike ot u d disc prob w le_rfl, nodePrice_zero]
    exact le_max_right _ _
  · intro h
    omega

/-- C9: on every parameter set that passes validation, has a well-defined
risk-neutral probability (`up - down ≠ 0`) lying in `[0, 1]`, and a
recognised option kind and exercise style, `binomial_option_price`
returns a non-negative value. -/
theorem binomial_price_nonneg (p : BinomialParameters)
    (hst : 0 < p.steps) (hsp : 0 < p.spot) (hk : 0 < p.strike)
    (hv : 0 ≤ p.volatility) (ht : 0 < p.time)
    (hot : p.option_type = "call" ∨ p.option_type = "put")
    (hex : p.exercise = "european" ∨ p.exercise = "american")
    (hud : upOf p - downOf p ≠ 0) (hp0 : 0 ≤ probOf p) (hp1 : probOf p ≤ 1) :
    ∃ x : ℝ, binomial_option_price p = .ok x ∧ 0 ≤ x := by
  rcases hex with hex | hex
  · refine ⟨euroRoot p, price_ok_european p hst hsp hk hv ht hot hex hud hp0 hp1, ?_⟩
    rw [euroRoot_eq_fun]
    exact euroFun_iterate_nonneg (discOf p) (probOf p) (Real.exp_pos _).le hp0 hp1
      (termFun p) (termFun_nonneg p) p.steps.toNat 0
  · refine ⟨amerRoot p, price_ok_american p hst hsp hk hv ht hot hex hud hp0 hp1, ?_⟩
    rw [amerRoot]
    exact amer_fold_nonneg p.spot p.strike p.option_type (upOf p) (downOf p)
      (discOf p) (probOf p) p.steps.toNat (terminalValues p) (termFun_nonneg p) 0

/-- C9 witness: the non-negativity at the concrete parameter set spot=1,
strike=1, rate=0, time=1, volatility=1, steps=1, call, european. -/
theorem binomial_price_nonneg_witness :
    ∃ x : ℝ,
      binomial_option_price ⟨1, 1, 0, 1, 1, 1, 0, "call", "european"⟩ = .ok x ∧
      0 ≤ x :=
  binomial_price_nonneg ⟨1, 1, 0, 1, 1, 1, 0, "call", "european"⟩
    (by norm_num) (by norm_num) (by norm_num) (by norm_num) (by norm_num)
    (Or.inl rfl) (Or.inl rfl) (wUD "call" "european") (wProb0 "call" "european")
    (wProb1 "call" "european")

/-- C10: on every parameter set that passes validation with exercise
"american" and a well-defined risk-neutral probability in `[0, 1]`, the
returned value is at least the immediate-exercise payoff at the spot
price, `payoff_fn option_type spot strike`, i.e. `max(spot - strike, 0)`
for a call and `max(strike - spot, 0)` for a put. -/
theorem american_ge_intrinsic (p : BinomialParameters)
    (hst : 0 < p.steps) (hsp : 0 < p.spot) (hk : 0 < p.strike)
    (hv : 0 ≤ p.volatility) (ht : 0 < p.time)
    (hot : p.option_type = "call" ∨ p.option_type = "put")
    (hex : p.exercise = "american")
    (hud : upOf p - downOf p ≠ 0) (hp0 : 0 ≤ probOf p) (hp1 : probOf p ≤ 1) :
    ∃ a : ℝ, binomial_option_price p = .ok a ∧
      payoff_fn p.option_type p.spot p.strike ≤ a := by
  refine ⟨amerRoot p, price_ok_american p hst hsp hk hv ht hot hex hud hp0 hp1, ?_⟩
  rw [amerRoot]
  exact amer_fold_ge_intrinsic p.spot p.strike p.option_type (upOf p) (downOf p)
    (discOf p) (probOf p) p.steps.toNat (by omega) (terminalValues p)

/-- C10 witness: the intrinsic-value bound at the concrete parameter set
spot=1, strike=1, rate=0, time=1, volatility=1, steps=1, put, american. -/
theorem american_ge_intrinsic_witness :
    ∃ a : ℝ,
      binomial_option_price ⟨1, 1, 0, 1, 1, 1, 0, "put", "american"⟩ = .ok a ∧
      payoff_fn "put" 1 1 ≤ a :=
  american_ge_intrinsic ⟨1, 1, 0, 1, 1, 1, 0, "put", "american"⟩
    (by norm_num) (by norm_num) (by norm_num) (by norm_num) (by norm_num)
    (Or.inr rfl) rfl (wUD "put" "american") (wProb0 "put" "american")
    (wProb1 "put" "american")

/-- Closed form of the iterated European mixing on an affine function of
the node price: discounting multiplies the asset leg by `disc * growth`
per round and the cash leg by `disc` per round. -/
lemma euroFun_iterate_affine (disc prob spot u d growth K : ℝ)
    (hpg : prob * u + (1 - prob) * d = growth) (n : ℕ) :
    ∀ (k : ℕ), k ≤ n → ∀ (j : ℕ), j + k ≤ n →
      (euroFun disc prob)^[k] (fun i => nodePrice spot u d n i - K) j =
        (disc * growth) ^ k * nodePrice spot u d (n - k) j - disc ^ k * K := by
  intro k
  induction k with
  | zero => intro _ j _; simp
  | succ m ih =>
    intro hkn j hjk
    have hnm : n - m = (n - (m + 1)) + 1 := by omega
    have hmix := nodePrice_mix spot u d growth prob hpg
      (show j ≤ n - (m + 1) by omega)
    rw [Function.iterate_succ_apply', euroFun_apply,
      ih (by omega) (j + 1) (by omega), ih (by omega) j (by omega), hnm]
    linear_combination (disc * (disc * growth) ^ m) * hmix

lemma nat_cast_steps (p : BinomialParameters) (hst : 0 < p.steps) :
    ((p.steps.toNat : ℝ)) = ((p.steps : ℤ) : ℝ) := by
  exact_mod_cast congrArg (Int.cast : ℤ → ℝ) (Int.toNat_of_nonneg hst.le)

lemma steps_cast_ne_zero (p : BinomialParameters) (hst : 0 < p.steps) :
    ((p.steps : ℤ) : ℝ) ≠ 0 := by
  exact_mod_cast (by omega : p.steps ≠ 0)

lemma disc_growth_pow (p : BinomialParameters) (hst : 0 < p.steps) :
    (discOf p * growthOf p) ^ p.steps.toNat =
      Real.exp (-p.dividend_yield * p.time) := by
  have hmul : discOf p * growthOf p = Real.exp (-p.dividend_yield * dtOf p) := by
    rw [discOf, growthOf, ← Real.exp_add]
    congr 1
    ring
  rw [hmul, ← Real.exp_nat_mul]
  congr 1
  rw [dtOf, nat_cast_steps p hst]
  field_simp [steps_cast_ne_zero p hst]
  ring

lemma disc_pow (p : BinomialParameters) (hst : 0 < p.steps) :
    discOf p ^ p.steps.toNat = Real.exp (-p.rate * p.time) := by
  rw [discOf, ← Real.exp_nat_mul]
  congr 1
  rw [dtOf, nat_cast_steps p hst]
  field_simp [steps_cast_ne_zero p hst]
  ring

/-- C5: for European exercise, on every parameter set that passes
validation with a well-defined risk-neutral probability in `[0, 1]`, the
call price minus the put price (all other parameters identical) equals
`spot * exp(-dividend_yield * time) - strike * exp(-rate * time)` —
exactly, in real arithmetic, hence within any numeric tolerance. -/
theorem put_call_parity (p : BinomialParameters)
    (hst : 0 < p.steps) (hsp : 0 < p.spot) (hk : 0 < p.strike)
    (hv : 0 ≤ p.volatility) (ht : 0 < p.time)
    (hex : p.exercise = "european")
    (hud : upOf p - downOf p ≠ 0) (hp0 : 0 ≤ probOf p) (hp1 : probOf p ≤ 1) :
    ∃ c q : ℝ,
      binomial_option_price (withOptionType p "call") = .ok c ∧
      binomial_option_price (withOptionType p "put") = .ok q ∧
      c - q = p.spot * Real.exp (-p.dividend_yield * p.time) -
        p.strike * Real.exp (-p.rate * p.time) := by
  have hpg := prob_mix p hud
  refine ⟨euroRoot (withOptionType p "call"), euroRoot (withOptionType p "put"),
    price_ok_european _ hst hsp hk hv ht (Or.inl rfl) hex hud hp0 hp1,
    price_ok_european _ hst hsp hk hv ht (Or.inr rfl) hex hud hp0 hp1, ?_⟩
  have h1 : euroRoot (withOptionType p "call") =
      (euroFun (discOf p) (probOf p))^[p.steps.toNat]
        (termFun (withOptionType p "call")) 0 := euroRoot_eq_fun _
  have h2 : euroRoot (withOptionType p "put") =
      (euroFun (discOf p) (probOf p))^[p.steps.toNat]
        (termFun (withOptionType p "put")) 0 := euroRoot_eq_fun _
  rw [h1, h2,
    ← euroFun_iterate_sub (discOf p) (probOf p) (termFun (withOptionType p "call"))
      (termFun (withOptionType p "put")) p.steps.toNat 0]
  have hagree : ∀ i, i ≤ 0 + p.steps.toNat →
      (termFun (withOptionType p "call") i - termFun (withOptionType p "put") i) =
        (fun i => nodePrice p.spot (upOf p) (downOf p) p.steps.toNat i - p.strike) i := by
    intro i hi
    have hi' : i ≤ p.steps.toNat := by omega
    have hc : termFun (withOptionType p "call") i =
        payoff_fn "call" (nodePrice p.spot (upOf p) (downOf p) p.steps.toNat i)
          p.strike := termFun_eq _ hi'
    have hq : termFun (withOptionType p "put") i =
        payoff_fn "put" (nodePrice p.spot (upOf p) (downOf p) p.steps.toNat i)
          p.strike := termFun_eq _ hi'
    rw [hc, hq]
    exact payoff_call_sub_put _ _
  rw [euroFun_congrOn (discOf p) (probOf p) p.steps.toNat
    (fun i => termFun (withOptionType p "call") i - termFun (withOptionType p "put") i)
    (fun i => nodePrice p.spot (upOf p) (downOf p) p.steps.toNat i - p.strike) 0 hagree]
  rw [euroFun_iterate_affine (discOf p) (probOf p) p.spot (upOf p) (downOf p)
    (growthOf p) p.strike hpg p.steps.toNat p.steps.toNat le_rfl 0 (by omega)]
  rw [Nat.sub_self, nodePrice_zero, disc_growth_pow p hst, disc_pow p hst]
  ring

/-- C5 witness: put-call parity at the concrete parameter set spot=1,
strike=1, rate=0, time=1, volatility=1, steps=1, european. -/
theorem put_call_parity_witness :
    ∃ c q : ℝ,
      binomial_option_price
        (withOptionType ⟨1, 1, 0, 1, 1, 1, 0, "call", "european"⟩ "call") = .ok c ∧
      binomial_option_price
        (withOptionType ⟨1, 1, 0, 1, 1, 1, 0, "call", "european"⟩ "put") = .ok q ∧
      c - q = 1 * Real.exp (-0 * 1) - 1 * Real.exp (-0 * 1) :=
  put_call_parity ⟨1, 1, 0, 1, 1, 1, 0, "call", "european"⟩
    (by norm_num) (by norm_num) (by norm_num) (by norm_num) (by norm_num)
    rfl (wUD "call" "european") (wProb0 "call" "european")
    (wProb1 "call" "european")

/-- Lower bound for the iterated European values of a call: each level
value dominates both zero and the forward-adjusted intrinsic value
`node price - strike * disc^k` (when `disc * growth = 1`, i.e. zero
dividend yield). -/
lemma euro_call_lower_bound (disc prob spot u d growth K : ℝ)
    (hpg : prob * u + (1 - prob) * d = growth) (hdg : disc * growth = 1)
    (hd : 0 ≤ disc) (hp0 : 0 ≤ prob) (hp1 : prob ≤ 1) (n : ℕ) (tf : ℕ → ℝ)
    (htf : ∀ i, i ≤ n → tf i = payoff_fn "call" (nodePrice spot u d n i) K) :
    ∀ (k : ℕ), k ≤ n → ∀ (j : ℕ), j + k ≤ n →
      nodePrice spot u d (n - k) j - K * disc ^ k ≤ (euroFun disc prob)^[k] tf j ∧
      0 ≤ (euroFun disc prob)^[k] tf j := by
  have hq : (0 : ℝ) ≤ 1 - prob := by linarith
  intro k
  induction k with
  | zero =>
    intro _ j hj
    rw [Function.iterate_zero_apply, htf j (by omega), payoff_fn, if_pos rfl,
      Nat.sub_zero, pow_zero, mul_one]
    exact ⟨le_max_left _ _, le_max_right _ _⟩
  | succ m ih =>
    intro hkn j hjk
    obtain ⟨ih1a, ih1b⟩ := ih (by omega) (j + 1) (by omega)
    obtain ⟨ih2a, ih2b⟩ := ih (by omega) j (by omega)
    rw [Function.iterate_succ_apply', euroFun_apply]
    constructor
    · have step1 :
          disc * (prob * (nodePrice spot u d (n - m) (j + 1) - K * disc ^ m) +
            (1 - prob) * (nodePrice spot u d (n - m) j - K * disc ^ m)) ≤
          disc * (prob * (euroFun disc prob)^[m] tf (j + 1) +
            (1 - prob) * (euroFun disc prob)^[m] tf j) :=
        mul_le_mul_of_nonneg_left
          (add_le_add (mul_le_mul_of_nonneg_left ih1a hp0)
            (mul_le_mul_of_nonneg_left ih2a hq)) hd
      refine le_trans (le_of_eq ?_) step1
      have hnm : n - m = (n - (m + 1)) + 1 := by omega
      have hmix := nodePrice_mix spot u d growth prob hpg
        (show j ≤ n - (m + 1) by omega)
      rw [hnm]
      linear_combination (-disc) * hmix +
        (-(nodePrice spot u d (n - (m + 1)) j)) * hdg
    · exact mul_nonneg hd (add_nonneg (mul_nonneg hp0 ih1b) (mul_nonneg hq ih2b))

/-- For a call with `disc * growth = 1` (zero dividend yield) and
`disc ≤ 1` (non-negative rate), the early-exercise comparison never
changes a value: the American fold coincides with the iterated European
rounds. -/
lemma amer_call_fold_eq (spot K u d disc prob growth : ℝ)
    (hpg : prob * u + (1 - prob) * d = growth) (hdg : disc * growth = 1)
    (hd : 0 ≤ disc) (hd1 : disc ≤ 1) (hp0 : 0 ≤ prob) (hp1 : prob ≤ 1)
    (hK : 0 ≤ K) (n : ℕ) (v : List ℝ)
    (htf : ∀ i, i ≤ n →
      v.getD i 0 = payoff_fn "call" (nodePrice spot u d n i) K) :
    (((List.range n).reverse).foldl (amerStep spot K "call" u d disc prob) v).getD
        0 0 =
      (euroFun disc prob)^[n] (fun i => v.getD i 0) 0 := by
  have main := foldl_range_reverse_inv (amerStep spot K "call" u d disc prob) n
    (fun s w => ∀ j, j ≤ s →
      w.getD j 0 = (euroFun disc prob)^[n - s] (fun i => v.getD i 0) j)
    ?_ n le_rfl v ?_
  · simpa using main 0 le_rfl
  · intro s w hsn hQ j hjs
    rw [amerStep_getD spot K "call" u d disc prob w hjs]
    have hns : n - s = (n - (s + 1)) + 1 := by omega
    have hcont : disc * (prob * w.getD (j + 1) 0 + (1 - prob) * w.getD j 0) =
        (euroFun disc prob)^[n - s] (fun i => v.getD i 0) j := by
      rw [hQ (j + 1) (by omega), hQ j (by omega), hns,
        Function.iterate_succ_apply', euroFun_apply]
    have hlb := euro_call_lower_bound disc prob spot u d growth K hpg hdg hd
      hp0 hp1 n (fun i => v.getD i 0) htf (n - s) (by omega) j (by omega)
    rw [show n - (n - s) = s by omega] at hlb
    have hexr : payoff_fn "call" (nodePrice spot u d s j) K ≤
        (euroFun disc prob)^[n - s] (fun i => v.getD i 0) j := by
      refine payoff_call_le _ _ _ ?_ hlb.2
      have hpow : disc ^ (n - s) ≤ 1 := pow_le_one₀ hd hd1
      have hKd : K * disc ^ (n - s) ≤ K := mul_le_of_le_one_right hK hpow
      linarith [hlb.1]
    rw [hcont]
    exact max_eq_left hexr
  · intro j _
    simp

/-- C6 (amended): for a call with zero dividend yield and NON-NEGATIVE
rate, on every parameter set passing validation with a well-defined
risk-neutral probability in `[0, 1]`, the American price equals the
European price.  (The non-negative-rate condition is necessary: see the
counterexample with rate `-1/2`.) -/
theorem american_call_eq_european_nonneg_rate (p : BinomialParameters)
    (hst : 0 < p.steps) (hsp : 0 < p.spot) (hk : 0 < p.strike)
    (hv : 0 ≤ p.volatility) (ht : 0 < p.time)
    (hr : 0 ≤ p.rate) (hdy : p.dividend_yield = 0)
    (hot : p.option_type = "call")
    (hud : upOf p - downOf p ≠ 0) (hp0 : 0 ≤ probOf p) (hp1 : probOf p ≤ 1) :
    ∃ a e : ℝ,
      binomial_option_price (withExercise p "american") = .ok a ∧
      binomial_option_price (withExercise p "european") = .ok e ∧ a = e := by
  refine ⟨amerRoot p, euroRoot p, ?_, ?_, ?_⟩
  · rw [← amerRoot_withExercise p "american"]
    exact price_ok_american _ hst hsp hk hv ht (Or.inl hot) rfl hud hp0 hp1
  · rw [← euroRoot_withExercise p "european"]
    exact price_ok_european _ hst hsp hk hv ht (Or.inl hot) rfl hud hp0 hp1
  · have hdg : discOf p * growthOf p = 1 := by
      rw [discOf, growthOf, ← Real.exp_add, hdy,
        show -p.rate * dtOf p + (p.rate - 0) * dtOf p = 0 by ring, Real.exp_zero]
    have hdt : 0 ≤ dtOf p := by
      rw [dtOf]
      refine div_nonneg ht.le ?_
      exact_mod_cast hst.le
    have hd1 : discOf p ≤ 1 := by
      rw [discOf, ← Real.exp_zero]
      refine Real.exp_le_exp.mpr ?_
      exact mul_nonpos_of_nonpos_of_nonneg (neg_nonpos.mpr hr) hdt
    have htf : ∀ i, i ≤ p.steps.toNat →
        (terminalValues p).getD i 0 =
          payoff_fn "call" (nodePrice p.spot (upOf p) (downOf p) p.steps.toNat i)
            p.strike := by
      intro i hi
      have h := termFun_eq p hi
      rw [hot] at h
      exact h
    rw [amerRoot, euroRoot_eq_fun, hot]
    exact amer_call_fold_eq p.spot p.strike (upOf p) (downOf p) (discOf p)
      (probOf p) (growthOf p) (prob_mix p hud) hdg (Real.exp_pos _).le hd1
      hp0 hp1 hk.le p.steps.toNat (terminalValues p) htf

/-- C6 (amended) witness: the equality at the concrete parameter set
spot=1, strike=1, rate=0, time=1, volatility=1, steps=1, call. -/
theorem american_call_eq_european_nonneg_rate_witness :
    ∃ a e : ℝ,
      binomial_option_price
        (withExercise ⟨1, 1, 0, 1, 1, 1, 0, "call", "european"⟩ "american") = .ok a ∧
      binomial_option_price
        (withExercise ⟨1, 1, 0, 1, 1, 1, 0, "call", "european"⟩ "european") = .ok e ∧
      a = e :=
  american_call_eq_european_nonneg_rate ⟨1, 1, 0, 1, 1, 1, 0, "call", "european"⟩
    (by norm_num) (by norm_num) (by norm_num) (by norm_num) (by norm_num)
    le_rfl rfl rfl (wUD "call" "european") (wProb0 "call" "european")
    (wProb1 "call" "european")

/-! Concrete evaluation lemmas for the parameter family spot=4, strike=1,
rate=-1/2, time=1, volatility=1, steps=1, dividend_yield=0, call, used to
exhibit early exercise of a call with negative rate. -/

lemma cDt (ex : String) : dtOf ⟨4, 1, -(1 / 2), 1, 1, 1, 0, "call", ex⟩ = 1 := by
  rw [dtOf]
  norm_num

lemma cUp (ex : String) :
    upOf ⟨4, 1, -(1 / 2), 1, 1, 1, 0, "call", ex⟩ = Real.exp 1 := by
  rw [upOf, cDt]
  norm_num [Real.sqrt_one]

lemma cDown (ex : String) :
    downOf ⟨4, 1, -(1 / 2), 1, 1, 1, 0, "call", ex⟩ = (Real.exp 1)⁻¹ := by
  rw [downOf, cUp, one_div]

lemma cGrowth (ex : String) :
    growthOf ⟨4, 1, -(1 / 2), 1, 1, 1, 0, "call", ex⟩ = Real.exp (-(1 / 2)) := by
  rw [growthOf, cDt]
  norm_num

lemma cDisc (ex : String) :
    discOf ⟨4, 1, -(1 / 2), 1, 1, 1, 0, "call", ex⟩ = Real.exp (1 / 2) := by
  rw [discOf, cDt]
  norm_num

lemma cUD (ex : String) :
    upOf ⟨4, 1, -(1 / 2), 1, 1, 1, 0, "call", ex⟩ -
      downOf ⟨4, 1, -(1 / 2), 1, 1, 1, 0, "call", ex⟩ ≠ 0 := by
  rw [cUp, cDown]
  have h := exp_one_facts
  have : (0 : ℝ) < Real.exp 1 - (Real.exp 1)⁻¹ := by linarith [h.1, h.2]
  exact ne_of_gt this

lemma cProb0 (ex : String) : 0 ≤ probOf ⟨4, 1, -(1 / 2), 1, 1, 1, 0, "call", ex⟩ := by
  rw [probOf, cUp, cDown, cGrowth]
  have h := exp_one_facts
  have hnum : (Real.exp 1)⁻¹ ≤ Real.exp (-(1 / 2)) := by
    rw [← Real.exp_neg]
    exact Real.exp_le_exp.mpr (by norm_num)
  exact div_nonneg (by linarith) (by linarith [h.1, h.2])

lemma cProb1 (ex : String) : probOf ⟨4, 1, -(1 / 2), 1, 1, 1, 0, "call", ex⟩ ≤ 1 := by
  rw [probOf, cUp, cDown, cGrowth]
  have h := exp_one_facts
  rw [div_le_one (by linarith [h.1, h.2])]
  have : Real.exp (-(1 / 2)) ≤ Real.exp 1 := Real.exp_le_exp.mpr (by norm_num)
  linarith

lemma cTf1 (ex : String) :
    termFun ⟨4, 1, -(1 / 2), 1, 1, 1, 0, "call", ex⟩ 1 = 4 * Real.exp 1 - 1 := by
  have h := exp_one_facts
  rw [termFun_eq _ (by norm_num), cUp, cDown, payoff_fn, if_pos rfl, nodePrice]
  norm_num
  linarith [h.1]

lemma cTf0 (ex : String) :
    termFun ⟨4, 1, -(1 / 2), 1, 1, 1, 0, "call", ex⟩ 0 = 4 * (Real.exp 1)⁻¹ - 1 := by
  have hpos := Real.exp_pos 1
  have hinv : (Real.exp 1)⁻¹ * Real.exp 1 = 1 := inv_mul_cancel₀ (ne_of_gt hpos)
  have h4 : Real.exp 1 < 4 := lt_trans Real.exp_one_lt_d9 (by norm_num)
  have hgt : (0 : ℝ) < 4 * (Real.exp 1)⁻¹ - 1 := by
    nlinarith [inv_pos.mpr hpos]
  rw [termFun_eq _ (by norm_num), cUp, cDown, payoff_fn, if_pos rfl, nodePrice]
  norm_num
  linarith

lemma cCont (ex : String) :
    discOf ⟨4, 1, -(1 / 2), 1, 1, 1, 0, "call", ex⟩ *
        (probOf ⟨4, 1, -(1 / 2), 1, 1, 1, 0, "call", ex⟩ *
            termFun ⟨4, 1, -(1 / 2), 1, 1, 1, 0, "call", ex⟩ 1 +
          (1 - probOf ⟨4, 1, -(1 / 2), 1, 1, 1, 0, "call", ex⟩) *
            termFun ⟨4, 1, -(1 / 2), 1, 1, 1, 0, "call", ex⟩ 0) =
      4 - Real.exp (1 / 2) := by
  have hpg := prob_mix _ (cUD ex)
  rw [cUp, cDown, cGrowth] at hpg
  rw [cTf1, cTf0, cDisc]
  have hee : Real.exp (1 / 2) * Real.exp (-(1 / 2)) = 1 := by
    rw [← Real.exp_add]
    norm_num
  linear_combination (4 * Real.exp (1 / 2)) * hpg + 4 * hee

lemma cEuroRoot (ex : String) :
    euroRoot ⟨4, 1, -(1 / 2), 1, 1, 1, 0, "call", ex⟩ = 4 - Real.exp (1 / 2) := by
  rw [euroRoot_eq_fun]
  rw [show BinomialParameters.steps ⟨4, 1, -(1 / 2), 1, 1, 1, 0, "call", ex⟩ = 1
    from rfl]
  rw [show ((1 : ℤ)).toNat = 1 from rfl, Function.iterate_one, euroFun_apply]
  rw [show (0 : ℕ) + 1 = 1 from rfl]
  exact cCont ex

lemma cAmerRoot (ex : String) :
    amerRoot ⟨4, 1, -(1 / 2), 1, 1, 1, 0, "call", ex⟩ = 3 := by
  rw [amerRoot]
  rw [show BinomialParameters.steps ⟨4, 1, -(1 / 2), 1, 1, 1, 0, "call", ex⟩ = 1
    from rfl]
  rw [show ((1 : ℤ)).toNat = 1 from rfl,
    show List.range 1 = [0] by decide, List.reverse_singleton,
    List.foldl_cons, List.foldl_nil]
  rw [amerStep_getD _ _ _ _ _ _ _ _ le_rfl, nodePrice_zero]
  have hcont := cCont ex
  rw [show (0 : ℕ) + 1 = 1 from rfl]
  rw [show (terminalValues ⟨4, 1, -(1 / 2), 1, 1, 1, 0, "call", ex⟩).getD 1 0 =
      termFun ⟨4, 1, -(1 / 2), 1, 1, 1, 0, "call", ex⟩ 1 from rfl,
    show (terminalValues ⟨4, 1, -(1 / 2), 1, 1, 1, 0, "call", ex⟩).getD 0 0 =
      termFun ⟨4, 1, -(1 / 2), 1, 1, 1, 0, "call", ex⟩ 0 from rfl, hcont]
  have hgt1 : (1 : ℝ) < Real.exp (1 / 2) := Real.one_lt_exp_iff.mpr (by norm_num)
  rw [payoff_fn, if_pos rfl]
  rw [show (4 : ℝ) - 1 = 3 by norm_num, max_eq_left (by norm_num : (0:ℝ) ≤ 3)]
  exact max_eq_right (by linarith)

/-- C6 counterexample: at spot=4, strike=1, rate=-1/2, time=1,
volatility=1, steps=1, dividend_yield=0, a call with zero dividend yield,
the parameters pass validation and the risk-neutral probability lies in
`[0, 1]`, yet the American price (3, immediate exercise) strictly exceeds
the European price (`4 - exp(1/2)`), refuting the claimed equality: with a
negative rate, early exercise of a call is optimal. -/
theorem american_call_negative_rate_exceeds_european :
    ∃ a e : ℝ,
      binomial_option_price ⟨4, 1, -(1 / 2), 1, 1, 1, 0, "call", "american"⟩ = .ok a ∧
      binomial_option_price ⟨4, 1, -(1 / 2), 1, 1, 1, 0, "call", "european"⟩ = .ok e ∧
      e < a := by
  refine ⟨3, 4 - Real.exp (1 / 2), ?_, ?_, ?_⟩
  · rw [← cAmerRoot "american"]
    exact price_ok_american _ (by norm_num) (by norm_num) (by norm_num)
      (by norm_num) (by norm_num) (Or.inl rfl) rfl (cUD "american")
      (cProb0 "american") (cProb1 "american")
  · rw [← cEuroRoot "european"]
    exact price_ok_european _ (by norm_num) (by norm_num) (by norm_num)
      (by norm_num) (by norm_num) (Or.inl rfl) rfl (cUD "european")
      (cProb0 "european") (cProb1 "european")
  · have hgt1 : (1 : ℝ) < Real.exp (1 / 2) := Real.one_lt_exp_iff.mpr (by norm_num)
    linarith

/-! Monte Carlo lemmas and theorems. -/

lemma mc_validate_ok (p : MonteCarloParameters) (h1 : 0 < p.spot)
    (h2 : 0 ≤ p.volatility) (h3 : 0 < p.time) (h4 : 0 < p.paths)
    (h5 : 0 < p.steps) : p.validate = .ok () := by
  rw [MonteCarloParameters.validate, if_neg (by linarith), if_neg (by linarith),
    if_neg (by linarith), if_neg (by omega), if_neg (by omega)]

lemma pathPrice_pos (p : MonteCarloParameters) (shock : ℕ → ℝ)
    (hsp : 0 < p.spot) : ∀ k, 0 < pathPrice p shock k := by
  intro k
  induction k with
  | zero => exact hsp
  | succ m ih => exact mul_pos ih (Real.exp_pos _)

/-- C8: on every valid `MonteCarloParameters`, `simulate_paths` returns
the matrix with exactly `paths` rows and `steps + 1` columns, every row
starting at `spot` and containing only positive prices. -/
theorem simulate_paths_shape (p : MonteCarloParameters) (shocks : ℕ → ℕ → ℝ)
    (h1 : 0 < p.spot) (h2 : 0 ≤ p.volatility) (h3 : 0 < p.time)
    (h4 : 0 < p.paths) (h5 : 0 < p.steps) :
    simulate_paths p shocks = .ok (gbmPaths p shocks) ∧
      (gbmPaths p shocks).length = p.paths.toNat ∧
      ∀ row ∈ gbmPaths p shocks,
        row.length = p.steps.toNat + 1 ∧ row.getD 0 0 = p.spot ∧
        ∀ x ∈ row, 0 < x := by
  refine ⟨?_, ?_, ?_⟩
  · rw [simulate_paths, mc_validate_ok p h1 h2 h3 h4 h5]
  · simp [gbmPaths]
  · intro row hrow
    rw [gbmPaths] at hrow
    rcases List.mem_map.mp hrow with ⟨i, -, rfl⟩
    refine ⟨by simp, ?_, ?_⟩
    · rw [getD_range_map _ (by omega)]
      rfl
    · intro x hx
      rcases List.mem_map.mp hx with ⟨k, -, rfl⟩
      exact pathPrice_pos p (shocks i) h1 k

/-- C8 witness: the shape facts at the concrete parameter set spot=1,
rate=0, time=1, volatility=0, paths=1, steps=1 with zero shocks. -/
theorem simulate_paths_shape_witness :
    simulate_paths ⟨1, 0, 1, 0, 1, 1, 0⟩ (fun _ _ => 0) =
        .ok (gbmPaths ⟨1, 0, 1, 0, 1, 1, 0⟩ (fun _ _ => 0)) ∧
      (gbmPaths ⟨1, 0, 1, 0, 1, 1, 0⟩ (fun _ _ => 0)).length = (1 : ℤ).toNat ∧
      ∀ row ∈ gbmPaths ⟨1, 0, 1, 0, 1, 1, 0⟩ (fun _ _ => 0),
        row.length = (1 : ℤ).toNat + 1 ∧ row.getD 0 0 = 1 ∧ ∀ x ∈ row, 0 < x :=
  simulate_paths_shape ⟨1, 0, 1, 0, 1, 1, 0⟩ (fun _ _ => 0)
    (by norm_num) le_rfl (by norm_num) (by norm_num) (by norm_num)

/-- C4: on every valid `MonteCarloParameters` and every payoff function
returning exactly one scalar per simulated path, `monte_carlo_price`
returns `exp(-rate * time)` times the arithmetic mean (sum divided by
count) of the per-path payoff values applied to the simulated paths. -/
theorem monte_carlo_price_formula (p : MonteCarloParameters)
    (payoff : List (List ℝ) → List ℝ) (shocks : ℕ → ℕ → ℝ)
    (h1 : 0 < p.spot) (h2 : 0 ≤ p.volatility) (h3 : 0 < p.time)
    (h4 : 0 < p.paths) (h5 : 0 < p.steps)
    (hlen : (payoff (gbmPaths p shocks)).length = p.paths.toNat) :
    monte_carlo_price p payoff shocks =
      .ok (Real.exp (-p.rate * p.time) *
        ((payoff (gbmPaths p shocks)).sum /
          ((payoff (gbmPaths p shocks)).length : ℝ))) := by
  rw [monte_carlo_price, simulate_paths, mc_validate_ok p h1 h2 h3 h4 h5]
  exact if_neg (not_not_intro hlen)

/-- C4 witness: the discounted-mean formula at the concrete parameter set
spot=1, rate=0, time=1, volatility=0, paths=1, steps=1, zero shocks, and
the constant payoff returning the single value 5. -/
theorem monte_carlo_price_formula_witness :
    monte_carlo_price ⟨1, 0, 1, 0, 1, 1, 0⟩ (fun _ => [(5 : ℝ)]) (fun _ _ => 0) =
      .ok (Real.exp (-(0 : ℝ) * 1) *
        (([(5 : ℝ)]).sum / ((([(5 : ℝ)]).length : ℕ) : ℝ))) :=
  monte_carlo_price_formula ⟨1, 0, 1, 0, 1, 1, 0⟩ (fun _ => [(5 : ℝ)])
    (fun _ _ => 0) (by norm_num) le_rfl (by norm_num) (by norm_num)
    (by norm_num) rfl

/-- C7: on every valid `MonteCarloParameters`, `monte_carlo_price` raises
the payoff-shape `ValueError` — and hence returns no average at all — if
and only if the payoff function applied to the simulated paths produces a
number of values different from the path count. -/
theorem payoff_shape_error_iff (p : MonteCarloParameters)
    (payoff : List (List ℝ) → List ℝ) (shocks : ℕ → ℕ → ℝ)
    (h1 : 0 < p.spot) (h2 : 0 ≤ p.volatility) (h3 : 0 < p.time)
    (h4 : 0 < p.paths) (h5 : 0 < p.steps) :
    monte_carlo_price p payoff shocks = .error (.valueError payoffShapeMessage) ↔
      (payoff (gbmPaths p shocks)).length ≠ p.paths.toNat := by
  rw [monte_carlo_price, simulate_paths, mc_validate_ok p h1 h2 h3 h4 h5]
  by_cases hlen : (payoff (gbmPaths p shocks)).length ≠ p.paths.toNat
  · exact iff_of_true (if_pos hlen) hlen
  · exact iff_of_false
      (fun h => Except.noConfusion ((if_neg hlen).symm.trans h)) hlen

/-- C7 witness: the error equivalence at the concrete parameter set
spot=1, rate=0, time=1, volatility=0, paths=1, steps=1, zero shocks, and
the empty payoff (0 values for 1 path). -/
theorem payoff_shape_error_iff_witness :
    (monte_carlo_price ⟨1, 0, 1, 0, 1, 1, 0⟩ (fun _ => ([] : List ℝ))
        (fun _ _ => 0) = .error (.valueError payoffShapeMessage)) ↔
      ([] : List ℝ).length ≠ (1 : ℤ).toNat :=
  payoff_shape_error_iff ⟨1, 0, 1, 0, 1, 1, 0⟩ (fun _ => ([] : List ℝ))
    (fun _ _ => 0) (by norm_num) le_rfl (by norm_num) (by norm_num)
    (by norm_num)
